import Mathlib

/-!
Verification development for the question-answering preprocessing pipeline in
`tokenAgreement/qa/local_run_debubg.py`.

The Python source is shallowly embedded below.  Strings are modelled as
`List Char`, Python `int`s as `Nat`/`Int` (with Python's negative-index and
clamping slice semantics made explicit), numpy float arrays as `List (List Rat)`
matrices, and the learning-rate floats of the scheduler as real numbers.
Fallible operations (out-of-range indexing, shape-mismatched numpy assignment)
return `Option`, with `none` standing for the Python exception.
-/

/-- Python's notion of a whitespace character, as used by `str.split()`,
`str.strip()` and `str.lstrip()` (space, tab, LF, VT, FF, CR). -/
def pyIsSpace (c : Char) : Bool :=
  c == ' ' || c == '\t' || c == '\n' || c == Char.ofNat 11 || c == Char.ofNat 12 || c == '\r'

/-- Python `str.lstrip()` with no arguments: drop leading whitespace. -/
def pyLstrip (l : List Char) : List Char := l.dropWhile pyIsSpace

/-- Python `str.strip()` with no arguments: drop whitespace on both sides. -/
def pyStrip (l : List Char) : List Char :=
  ((pyLstrip l).reverse.dropWhile pyIsSpace).reverse

/-- Python slice `l[a:b]` for `0 ≤ a ≤ b` (clamping at the list's length). -/
def pySlice {α : Type} (l : List α) (a b : Nat) : List α := (l.take b).drop a

/-- Python slice `l[:n]` where `n` may be negative (`l[:-k]` drops the last
`k` elements); clamping semantics as in Python. -/
def pyTakeSlice {α : Type} (l : List α) (n : Int) : List α :=
  if 0 ≤ n then l.take n.toNat else l.take (l.length - (-n).toNat)

/-- Python indexing `l[i]` where `i` may be negative (`l[-k]` is the `k`-th
element from the end); `none` models the `IndexError`. -/
def pyGetI {α : Type} (l : List α) (i : Int) : Option α :=
  if 0 ≤ i then l[i.toNat]?
  else if (-i).toNat ≤ l.length then l[l.length - (-i).toNat]? else none

/-- Python `str.lower()` (ASCII-faithful). -/
def pyLower (l : List Char) : List Char := l.map Char.toLower

/-! ### Offset-Tracking Tokenizer

Embedding of the whitespace tokenizer loop of `prepare_train_features`
(`local_run_debubg.py` lines 376–396).  The Python loop walks `start` through
the context, detecting runs of characters of equal spaceness (`== ' '`); at a
class change it appends `context[end:start]` to `context_tokens` (and `end` to
`context_tokens_idx`) provided `len(sub_string.lstrip()) > 0`; after the loop
the trailing run `context[end:start]` is appended unconditionally. -/
def tokLoop (context : List Char) (start endIdx : Nat) (isSpace : Bool)
    (toks : List (List Char)) (idxs : List Nat) : List (List Char) × List Nat :=
  if h : start < context.length then
    let newIsSpace := context[start] == ' '
    if newIsSpace == isSpace then
      tokLoop context (start + 1) endIdx isSpace toks idxs
    else
      let sub := (context.drop endIdx).take (start - endIdx)
      if (pyLstrip sub).length > 0 then
        tokLoop context (start + 1) start newIsSpace (toks ++ [sub]) (idxs ++ [endIdx])
      else
        tokLoop context (start + 1) start newIsSpace toks idxs
  else
    (toks ++ [(context.drop endIdx).take (start - endIdx)], idxs ++ [endIdx])
termination_by context.length - start
decreasing_by all_goals omega

/-- The tokenizer of lines 376–396: `is_space = context[start] == ' '` is read
before the loop, so the empty context raises `IndexError` (modelled by
`none`); otherwise the loop runs with `start = end = 0`. -/
def contextTokenize (context : List Char) : Option (List (List Char) × List Nat) :=
  match context with
  | [] => none
  | c :: cs => some (tokLoop (c :: cs) 0 0 (c == ' ') [] [])

/-! ### Answer normalization and relocation

Lines 398–429: the answer text is normalized by `" ".join(text.split())`,
the (augmented) context is rebuilt by `" ".join(context_tokens)`, and the new
`answer_start` list is `[context.index(answers_text)]` if `answers_text in
context` else `[]`. -/

/-- Helper for `pySplit`: accumulate the current (reversed) run of
non-whitespace characters. -/
def pySplitAux (acc : List Char) : List Char → List (List Char)
  | [] => if acc.isEmpty then [] else [acc.reverse]
  | c :: cs =>
    if pyIsSpace c then
      if acc.isEmpty then pySplitAux [] cs else acc.reverse :: pySplitAux [] cs
    else pySplitAux (c :: acc) cs

/-- Python `str.split()` with no arguments: maximal non-whitespace runs,
empty pieces dropped. -/
def pySplit (l : List Char) : List (List Char) := pySplitAux [] l

/-- Python `" ".join(pieces)`. -/
def joinSpace (pieces : List (List Char)) : List Char := List.intercalate [' '] pieces

/-- Line 399–400: `answers_text = " ".join(answers_text.split())`. -/
def normalizeAnswer (t : List Char) : List Char := joinSpace (pySplit t)

/-- Python `haystack.find(needle)`-style first-occurrence search, as used by
`answers_text in context` / `context.index(answers_text)` (lines 424–425). -/
def pyFind : List Char → List Char → Option Nat
  | ctx, pat =>
    if ctx.take pat.length = pat then some 0
    else
      match ctx with
      | [] => none
      | _ :: rest => (pyFind rest pat).map (· + 1)

/-- Lines 422–429: the new `answer_start` list after augmentation — a
singleton with the match index when the normalized answer text occurs in the
mutated context, and the empty (unanswerable) list otherwise. -/
def relocate (ctx : List Char) (answersText : List Char) : List Nat :=
  match pyFind ctx answersText with
  | some i => [i]
  | none => []

/-! ### Lexical Substitution Augmenter

Lines 284–285 build `random_index = [0]*ratio + [1]*(10-ratio)` (then shuffle
it); lines 404–419 run the substitution loops.  The shared random stream is
modelled by two oracle functions `dF` (which element of `random_index` the
draw for token `t` picks) and `pF` (which candidate the replacement draw for
token `t` picks); `random.choice` from a list `l` is `l[draw % l.length]`. -/

/-- The substitution decision of `random.choice(random_index) == 0`. -/
def drawsReplace (randomIndex : List Nat) (d : Nat) : Bool :=
  randomIndex.getD (d % randomIndex.length) 1 == 0

/-- Lines 414–419, body for one context token: `cur = token.lower()`; if the
token's start index is not inside `[answer_range[0], answer_range[1]]`
(both bounds inclusive, exactly as `not (a <= idx <= b)`) and `cur` is a
table key, a draw decides whether to replace the token by a sampled
candidate. -/
def augmentContextToken (table : List Char → Option (List (List Char)))
    (randomIndex : List Nat) (d p : Nat) (answerRange : Nat × Nat)
    (tok : List Char) (idx : Nat) : List Char :=
  let cur := pyLower tok
  if ¬ (answerRange.1 ≤ idx ∧ idx ≤ answerRange.2) then
    match table cur with
    | some cands => if drawsReplace randomIndex d then cands.getD (p % cands.length) tok else tok
    | none => tok
  else tok

/-- The context-token loop of lines 414–419; `t` is the running token index
feeding the random oracles. -/
def augmentContextGo (table : List Char → Option (List (List Char)))
    (randomIndex : List Nat) (dF pF : Nat → Nat) (answerRange : Nat × Nat) :
    Nat → List (List Char) → List Nat → List (List Char)
  | _, [], _ => []
  | _, _ :: _, [] => []
  | t, tok :: toks, idx :: idxs =>
    augmentContextToken table randomIndex (dF t) (pF t) answerRange tok idx ::
      augmentContextGo table randomIndex dF pF answerRange (t + 1) toks idxs

/-- Context-side augmentation (lines 414–419) over the token texts and their
start indices. -/
def augmentContext (table : List Char → Option (List (List Char)))
    (randomIndex : List Nat) (dF pF : Nat → Nat) (answerRange : Nat × Nat)
    (toks : List (List Char)) (idxs : List Nat) : List (List Char) :=
  augmentContextGo table randomIndex dF pF answerRange 0 toks idxs

/-- Lines 406–410, body for one question token: `cur =
token.lower().strip()`; no protected range. -/
def augmentQuestionToken (table : List Char → Option (List (List Char)))
    (randomIndex : List Nat) (d p : Nat) (tok : List Char) : List Char :=
  match table (pyStrip (pyLower tok)) with
  | some cands => if drawsReplace randomIndex d then cands.getD (p % cands.length) tok else tok
  | none => tok

/-- The question-token loop of lines 406–410. -/
def augmentQuestionGo (table : List Char → Option (List (List Char)))
    (randomIndex : List Nat) (dF pF : Nat → Nat) :
    Nat → List (List Char) → List (List Char)
  | _, [] => []
  | t, tok :: toks =>
    augmentQuestionToken table randomIndex (dF t) (pF t) tok ::
      augmentQuestionGo table randomIndex dF pF (t + 1) toks

/-- Question-side augmentation (lines 406–410). -/
def augmentQuestion (table : List Char → Option (List (List Char)))
    (randomIndex : List Nat) (dF pF : Nat → Nat) (toks : List (List Char)) : List (List Char) :=
  augmentQuestionGo table randomIndex dF pF 0 toks

/-! ### Argument validation

Lines 250–268 of `parse_args`: after `argparse` succeeds, raise if no input
source at all was given, else assert that every provided
train/validation/test file has extension `csv` or `json` (the extension being
the last `"."`-separated piece of the name). -/

/-- The post-`argparse` fields that lines 250–268 inspect. -/
structure QAArgs where
  dataset_name : Option (List Char)
  train_file : Option (List Char)
  validation_file : Option (List Char)
  test_file : Option (List Char)

/-- Python `name.split(".")`: split at every `'.'`, keeping empty pieces. -/
def splitDotAux (acc : List Char) : List Char → List (List Char)
  | [] => [acc.reverse]
  | c :: cs => if c == '.' then acc.reverse :: splitDotAux [] cs else splitDotAux (c :: acc) cs

/-- Python `name.split(".")`. -/
def splitDot (l : List Char) : List (List Char) := splitDotAux [] l

/-- `name.split(".")[-1]` — the file extension as computed on lines 260/263/266. -/
def pyExtension (f : List Char) : List Char := (splitDot f).getLastD []

/-- The `assert extension in ["csv", "json"]` check. -/
def extOk (f : List Char) : Bool :=
  pyExtension f == ['c', 's', 'v'] || pyExtension f == ['j', 's', 'o', 'n']

/-- Extension check for an optional file argument (absent files are not
checked). -/
def fileOk : Option (List Char) → Bool
  | none => true
  | some f => extOk f

/-- Lines 250–268: `true` iff `parse_args` returns normally (no `ValueError`,
no failed `assert`). -/
def parseArgsValidate (a : QAArgs) : Bool :=
  if a.dataset_name = none ∧ a.train_file = none ∧ a.validation_file = none ∧ a.test_file = none
  then false
  else fileOk a.train_file && fileOk a.validation_file && fileOk a.test_file

/-! ### Logit Stitcher

`create_and_fill_np_array` (lines 651–681).  A numpy matrix is a rectangular
`List (List Rat)`; `logits_concat` starts as `np.full((len(dataset), max_len),
-100)`.  Block assignment `dest[a:b, :cols] = src` follows numpy semantics:
the row counts must agree (or the source must have a single broadcastable
row), otherwise a `ValueError` is raised (`none`). -/

/-- The fill sentinel `-100` of line 665. -/
def sentinel : Rat := -100

/-- One all-sentinel row of width `maxLen`. -/
def blankRow (maxLen : Nat) : List Rat := List.replicate maxLen sentinel

/-- numpy block assignment `dest[a:b, :cols] = src` (with `a`, `b` clamped to
the row count as numpy slices are).  Checks that `src` is a rectangular
`(len src) × cols` matrix and that the destination rows are at least `cols`
wide, then requires the row counts to match (or a single source row, which
numpy broadcasts); otherwise the assignment raises. -/
def assignRegion (dest : List (List Rat)) (a b cols : Nat) (src : List (List Rat)) :
    Option (List (List Rat)) :=
  let lo := min a dest.length
  let hi := min b dest.length
  let region := (dest.drop lo).take (hi - lo)
  if ¬ (∀ r ∈ src, r.length = cols) then none
  else if ¬ (∀ r ∈ region, cols ≤ r.length) then none
  else if src.length = hi - lo then
    some (dest.take lo ++ List.zipWith (fun old s => s.take cols ++ old.drop cols) region src ++
      dest.drop hi)
  else if src.length = 1 then
    some (dest.take lo ++ region.map (fun old => (src.headD []).take cols ++ old.drop cols) ++
      dest.drop hi)
  else none

/-- The loop of lines 667–679: for each batch, write it at row `step`
(truncating to `len(dataset) - step` rows when `step + batch_size <
len(dataset)` fails), then advance `step` by the batch's row count. -/
def fillLoop (dl : Nat) (dest : List (List Rat)) (step : Nat) :
    List (List (List Rat)) → Option (List (List Rat))
  | [] => some dest
  | batch :: rest =>
    let bs := batch.length
    let cols := (batch.headD []).length
    let res :=
      if step + bs < dl then assignRegion dest step (step + bs) cols batch
      else assignRegion dest step dest.length cols (pyTakeSlice batch ((dl : Int) - (step : Int)))
    match res with
    | none => none
    | some dest2 => fillLoop dl dest2 (step + bs) rest

/-- `create_and_fill_np_array(start_or_end_logits, dataset, max_len)`
(lines 651–681): `dl` is `len(dataset)`. -/
def create_and_fill_np_array (batches : List (List (List Rat))) (dl maxLen : Nat) :
    Option (List (List Rat)) :=
  fillLoop dl (List.replicate dl (blankRow maxLen)) 0 batches

/-- A batch-row padded with the sentinel to width `maxLen`, as block
assignment into a fresh sentinel row produces. -/
def padRow (maxLen : Nat) (r : List Rat) : List Rat :=
  r ++ List.replicate (maxLen - r.length) sentinel

/-- The intended result of the stitcher: the batches' rows concatenated in
arrival order, each padded to `maxLen`, truncated/extended to exactly `dl`
rows with sentinel rows marking never-written positions. -/
def stitchOf (maxLen dl : Nat) (rows : List (List Rat)) : List (List Rat) :=
  (rows.map (padRow maxLen)).take dl ++ List.replicate (dl - rows.length) (blankRow maxLen)

/-! ### Span Resolver

Lines 464–501.  A feature carries `input_ids`, the subword `offset_mapping`
and the `sequence_ids` array (`none` for special/padding tokens). -/

/-- One tokenized feature, as consumed by the labelling loop. -/
structure QAFeature where
  input_ids : List Nat
  offsets : List (Nat × Nat)
  seqIds : List (Option Nat)

/-- The forward scan `while sequence_ids[i] != target: i += 1` of lines
482–484; `none` models the `IndexError` when the scan runs past the end. -/
def scanFwd (seqIds : List (Option Nat)) (target : Nat) (i : Nat) : Option Nat :=
  if h : i < seqIds.length then
    if seqIds[i] == some target then some i else scanFwd seqIds target (i + 1)
  else none
termination_by seqIds.length - i
decreasing_by all_goals omega

/-- The backward scan `while sequence_ids[i] != target: i -= 1` of lines
486–488, started from index `k`.  Reaching below 0 re-scans the same
elements through Python's negative aliasing and then raises, so for a start
index of `len - 1` the scan is equivalent to: first match at or below `k`,
else `IndexError` (`none`). -/
def scanBackFrom (seqIds : List (Option Nat)) (target : Nat) : Nat → Option Nat
  | 0 => if seqIds[0]? == some (some target) then some 0 else none
  | k + 1 =>
    if seqIds[k + 1]? == some (some target) then some (k + 1)
    else scanBackFrom seqIds target k

/-- The start-tightening loop of lines 496–497:
`while i < len(offsets) and offsets[i][0] <= start_char: i += 1`. -/
def tightenStart (offsets : List (Nat × Nat)) (startChar : Nat) (i : Nat) : Nat :=
  if h : i < offsets.length then
    if offsets[i].1 ≤ startChar then tightenStart offsets startChar (i + 1) else i
  else i
termination_by offsets.length - i
decreasing_by all_goals omega

/-- The end-tightening loop of lines 499–500:
`while offsets[i][1] >= end_char: i -= 1`.  There is no lower bound check, so
`i` can go negative (Python then aliases from the end of the list) and
eventually raise `IndexError` (`none`).  `fuel` only drives the recursion; the
wrapper passes enough for the scan to reach the raising index. -/
def tightenEndAux (offsets : List (Nat × Nat)) (endChar : Nat) : Nat → Int → Option Int
  | 0, _ => none
  | fuel + 1, i =>
    match pyGetI offsets i with
    | none => none
    | some o => if endChar ≤ o.2 then tightenEndAux offsets endChar fuel (i - 1) else some i

/-- The end-tightening loop started at index `i`. -/
def tightenEnd (offsets : List (Nat × Nat)) (endChar : Nat) (i : Int) : Option Int :=
  tightenEndAux offsets endChar (i + offsets.length + 2).toNat i

/-- The per-feature labelling of lines 464–501, producing
`(start_position, end_position)`.  `none` models any raised `IndexError`
(missing CLS id, featureless sequence-id scan, or the unbounded
end-tightening scan running off the list). -/
def resolveSpan (clsId : Nat) (padOnRight : Bool) (f : QAFeature)
    (answerStart : List Nat) (answerText : List Char) : Option (Int × Int) :=
  if clsId ∈ f.input_ids then
    let clsIndex : Int := f.input_ids.indexOf clsId
    if answerStart.isEmpty then some (clsIndex, clsIndex)
    else
      let startChar := answerStart.headD 0
      let endChar := startChar + answerText.length
      let target : Nat := if padOnRight then 1 else 0
      match scanFwd f.seqIds target 0 with
      | none => none
      | some tsi =>
        match scanBackFrom f.seqIds target (f.input_ids.length - 1) with
        | none => none
        | some tei =>
          match f.offsets[tsi]?, f.offsets[tei]? with
          | some os, some oe =>
            if ¬ (os.1 ≤ startChar ∧ endChar ≤ oe.2) then some (clsIndex, clsIndex)
            else
              let ts := tightenStart f.offsets startChar tsi
              match tightenEnd f.offsets endChar tei with
              | none => none
              | some te => some ((ts : Int) - 1, te + 1)
          | _, _ => none
  else none

/-! ### Warmup / Inverse-Sqrt Scheduler

`ReverseSqrtScheduler` (lines 47–72).  The optimizer's per-group learning
rates are the `optLR` list; `_update_learning_rate` bumps the step counter,
computes the rate list and writes it into the groups. -/

/-- The scheduler's mutable state: constructor arguments plus the step
counter and the optimizer's current per-group rates. -/
structure SchedState where
  lrMul : List Real
  nWarmupSteps : Nat
  nSteps : Nat
  optLR : List Real

/-- `__init__` (lines 48–55): counter 0; the optimizer groups start at their
construction-time rates, one per entry of `lr`. -/
noncomputable def schedInit (lr : List Real) (nWarmup : Nat) : SchedState :=
  ⟨lr, nWarmup, 0, lr⟩

/-- Line 54: `decay_factor = [_lr * n_warmup_steps ** 0.5 for _lr in lr]`. -/
noncomputable def schedDecayFactor (s : SchedState) : List Real :=
  s.lrMul.map (fun l => l * Real.sqrt s.nWarmupSteps)

/-- Line 55: `lr_step = [(_lr - 0) / n_warmup_steps for _lr in lr]`. -/
noncomputable def schedLrStep (s : SchedState) : List Real :=
  s.lrMul.map (fun l => (l - 0) / s.nWarmupSteps)

/-- `for i, param_group in enumerate(param_groups): param_group['lr'] = lr[i]`
(lines 71–72), for groups and rate lists of equal length. -/
noncomputable def applyRates : List Real → List Real → List Real
  | [], _ => []
  | _ :: gs, r :: rs => r :: applyRates gs rs
  | gs, [] => gs

/-- `_update_learning_rate` (lines 64–72). -/
noncomputable def updateLearningRate (s : SchedState) : SchedState :=
  let n := s.nSteps + 1
  let lr :=
    if n < s.nWarmupSteps then (schedLrStep s).map (fun st => (n : Real) * st)
    else (schedDecayFactor s).map (fun d => d * ((n : Real)) ^ (-(1/2 : Real)))
  { s with nSteps := n, optLR := applyRates s.optLR lr }

/-- The scheduler state after `n` calls of `step_and_update_lr`. -/
noncomputable def schedAfter (lr : List Real) (nw : Nat) : Nat → SchedState
  | 0 => schedInit lr nw
  | n + 1 => updateLearningRate (schedAfter lr nw n)

/-- The learning rate applied to parameter group `i` after `n` update calls. -/
noncomputable def appliedRate (lr : List Real) (nw n i : Nat) : Real :=
  (schedAfter lr nw n).optLR.getD i 0

/-! ## Helper lemmas -/

lemma dropWhile_ne_nil_exists {α : Type} (p : α → Bool) :
    ∀ l : List α, l.dropWhile p ≠ [] → ∃ c ∈ l, p c = false := by
  intro l
  induction l with
  | nil => intro h; simp [List.dropWhile] at h
  | cons c cs ih =>
    intro h
    by_cases hc : p c
    · rw [List.dropWhile_cons_of_pos hc] at h
      obtain ⟨d, hd, hpd⟩ := ih h
      exact ⟨d, List.mem_cons_of_mem _ hd, hpd⟩
    · exact ⟨c, List.mem_cons_self c cs, by simpa using hc⟩

/-- Structure of a full run of the tokenizer loop: it appends to the
accumulators some guarded tokens `mid` (each nonempty, space-free and
containing a non-whitespace character) followed by the one unconditional
trailing token, which is merely nonempty. -/
lemma tokLoop_decomp (context : List Char) :
    ∀ fuel start endIdx isSpace (toks : List (List Char)) (idxs : List Nat),
      context.length - start ≤ fuel →
      endIdx ≤ start →
      endIdx < context.length →
      (∀ c ∈ (context.drop endIdx).take (start - endIdx), (c == ' ') = isSpace) →
      ∃ mid lastTok idxNew,
        tokLoop context start endIdx isSpace toks idxs =
          (toks ++ (mid ++ [lastTok]), idxs ++ idxNew) ∧
        lastTok ≠ [] ∧
        ∀ t ∈ mid, t ≠ [] ∧ (∀ c ∈ t, (c == ' ') = false) ∧ ∃ c ∈ t, pyIsSpace c = false := by
  intro fuel
  induction fuel with
  | zero =>
    intro start endIdx isSpace toks idxs hfuel hle hlt _
    have hstart : ¬ start < context.length := by omega
    rw [tokLoop, dif_neg hstart]
    refine ⟨[], (context.drop endIdx).take (start - endIdx), [endIdx], by simp, ?_, by simp⟩
    have : ((context.drop endIdx).take (start - endIdx)).length > 0 := by
      simp only [List.length_take, List.length_drop]
      omega
    exact List.ne_nil_of_length_pos this
  | succ fuel ih =>
    intro start endIdx isSpace toks idxs hfuel hle hlt hrun
    by_cases hstart : start < context.length
    · rw [tokLoop, dif_pos hstart]
      dsimp only
      have hext : (context.drop endIdx).take (start + 1 - endIdx) =
          (context.drop endIdx).take (start - endIdx) ++ [context[start]] := by
        have h1 : start + 1 - endIdx = (start - endIdx) + 1 := by omega
        rw [h1, List.take_succ]
        have h2 : (context.drop endIdx)[start - endIdx]? = some context[start] := by
          rw [List.getElem?_drop]
          have h3 : endIdx + (start - endIdx) = start := by omega
          rw [h3, List.getElem?_eq_getElem hstart]
        rw [h2]
        rfl
      by_cases hsame : (context[start] == ' ') = isSpace
      · rw [if_pos (by simpa using hsame)]
        refine ih (start + 1) endIdx isSpace toks idxs (by omega) (by omega) hlt ?_
        intro c hc
        rw [hext] at hc
        rcases List.mem_append.mp hc with h | h
        · exact hrun c h
        · simp only [List.mem_singleton] at h
          rw [h]; exact hsame
      · rw [if_neg (by simpa using hsame)]
        have hrun1 : ∀ c ∈ (context.drop start).take (start + 1 - start),
            (c == ' ') = (context[start] == ' ') := by
          intro c hc
          have h1 : start + 1 - start = 1 := by omega
          rw [h1] at hc
          have h2 : (context.drop start).take 1 = [context[start]] := by
            rw [show (1 : Nat) = 0 + 1 by omega, List.take_succ]
            simp [List.getElem?_drop, List.getElem?_eq_getElem hstart]
          rw [h2, List.mem_singleton] at hc
          rw [hc]
        by_cases hkeep : (pyLstrip ((context.drop endIdx).take (start - endIdx))).length > 0
        · rw [if_pos hkeep]
          obtain ⟨mid, lastTok, idxNew, heq, hlast, hmid⟩ :=
            ih (start + 1) start (context[start] == ' ') (toks ++ [(context.drop endIdx).take (start - endIdx)])
              (idxs ++ [endIdx]) (by omega) (by omega) hstart hrun1
          refine ⟨(context.drop endIdx).take (start - endIdx) :: mid, lastTok, endIdx :: idxNew,
            by rw [heq]; simp, hlast, ?_⟩
          intro t ht
          rcases List.mem_cons.mp ht with h | h
          · subst h
            have hsubne : (context.drop endIdx).take (start - endIdx) ≠ [] := by
              intro hnil
              rw [hnil] at hkeep
              simp [pyLstrip] at hkeep
            have hspace : isSpace = false := by
              by_contra hne
              have htrue : isSpace = true := by
                cases isSpace
                · exact absurd rfl hne
                · rfl
              have : pyLstrip ((context.drop endIdx).take (start - endIdx)) = [] := by
                rw [pyLstrip, List.dropWhile_eq_nil_iff]
                intro a ha
                have := hrun a ha
                rw [htrue] at this
                have ha' : a = ' ' := by simpa using this
                rw [ha']; rfl
              rw [this] at hkeep
              simp at hkeep
            refine ⟨hsubne, ?_, ?_⟩
            · intro c hc
              have := hrun c hc
              rw [hspace] at this
              exact this
            · exact dropWhile_ne_nil_exists pyIsSpace _ (List.ne_nil_of_length_pos hkeep)
          · exact hmid t h
        · rw [if_neg hkeep]
          exact ih (start + 1) start (context[start] == ' ') toks idxs (by omega) (by omega)
            hstart hrun1
    · rw [tokLoop, dif_neg hstart]
      refine ⟨[], (context.drop endIdx).take (start - endIdx), [endIdx], by simp, ?_, by simp⟩
      have : ((context.drop endIdx).take (start - endIdx)).length > 0 := by
        simp only [List.length_take, List.length_drop]
        omega
      exact List.ne_nil_of_length_pos this

/-! ## C10 — tokenizer domain -/

/-- C10: the Offset-Tracking Tokenizer requires a non-empty context string;
for every non-empty input all character indexing stays within bounds (the
embedding is total there), and the error branch (the initial
`context[start]` read) is reached exactly on the empty string. -/
theorem c10_tokenizer_empty_input (context : List Char) :
    contextTokenize context = none ↔ context = [] := by
  cases context <;> simp [contextTokenize]

theorem c10_witness : contextTokenize [] = none :=
  (c10_tokenizer_empty_input []).mpr rfl

/-! ## C5 — tokenizer output shape -/

/-- C5 counterexample: the all-whitespace context `"  "` does **not** yield an
empty token sequence; the unconditional trailing append emits the
whitespace-only token `"  "` (its `lstrip` is empty). -/
theorem c5_counterexample :
    contextTokenize [' ', ' '] = some ([[' ', ' ']], [0]) ∧
      pyLstrip [' ', ' '] = [] ∧ ([[' ', ' ']] : List (List Char)) ≠ [] := by
  refine ⟨?_, by decide, by decide⟩
  simp [contextTokenize, tokLoop, pyLstrip, pyIsSpace]

/-- C5 as amended: on every non-empty input the tokenizer emits a non-empty
token sequence in which every token is non-empty and every token **except the
final, unconditionally appended one** contains no space character and contains
at least one non-whitespace character (so runs of spaces act as separators and
never produce empty or whitespace-only tokens among the guarded tokens); the
final token is the trailing run and may be whitespace-only, and an
all-whitespace input therefore yields that single whitespace token rather than
an empty sequence. -/
theorem c5_tokenizer_tokens (c : Char) (cs : List Char) :
    ∃ toks idxs, contextTokenize (c :: cs) = some (toks, idxs) ∧ toks ≠ [] ∧
      (∀ t ∈ toks, t ≠ []) ∧
      ∀ t ∈ toks.dropLast, (∀ ch ∈ t, (ch == ' ') = false) ∧ ∃ ch ∈ t, pyIsSpace ch = false := by
  obtain ⟨mid, lastTok, idxNew, heq, hlast, hmid⟩ :=
    tokLoop_decomp (c :: cs) (c :: cs).length 0 0 (c == ' ') [] []
      (by omega) (by omega) (by simp) (by simp)
  refine ⟨mid ++ [lastTok], idxNew, by simp [contextTokenize, heq], by simp, ?_, ?_⟩
  · intro t ht
    rcases List.mem_append.mp ht with h | h
    · exact (hmid t h).1
    · simp only [List.mem_singleton] at h
      rw [h]; exact hlast
  · intro t ht
    rw [List.dropLast_concat] at ht
    exact ⟨(hmid t ht).2.1, (hmid t ht).2.2⟩

theorem c5_witness :
    ∃ toks idxs, contextTokenize ['a', ' ', 'b'] = some (toks, idxs) ∧ toks ≠ [] ∧
      (∀ t ∈ toks, t ≠ []) ∧
      ∀ t ∈ toks.dropLast, (∀ ch ∈ t, (ch == ' ') = false) ∧ ∃ ch ∈ t, pyIsSpace ch = false :=
  c5_tokenizer_tokens 'a' [' ', 'b']

/-! ## C2 — answer relocation invariant -/

lemma pyFind_spec (pat : List Char) :
    ∀ (ctx : List Char) (i : Nat), pyFind ctx pat = some i →
      (ctx.drop i).take pat.length = pat := by
  intro ctx
  induction ctx with
  | nil =>
    intro i h
    rw [pyFind] at h
    by_cases htake : ([] : List Char).take pat.length = pat
    · rw [if_pos htake] at h
      cases h
      simpa using htake
    · rw [if_neg htake] at h
      cases h
  | cons c rest ih =>
    intro i h
    rw [pyFind] at h
    by_cases htake : (c :: rest).take pat.length = pat
    · rw [if_pos htake] at h
      cases h
      simpa using htake
    · rw [if_neg htake] at h
      simp only [Option.map_eq_some'] at h
      obtain ⟨j, hj, hji⟩ := h
      have := ih j hj
      rw [← hji]
      simpa using this

/-- C2 counterexample: with original answer text `"a  b"` (double space) and
mutated context `"a b c"`, the relocator resolves at index 0, but the slice of
length `len(answers["text"][0])` — the length that lines 479–480 subsequently
use for `end_char` — is `"a b "`, which equals neither the original answer
text nor its normalization. -/
theorem c2_counterexample :
    relocate (joinSpace [['a'], ['b'], ['c']]) (normalizeAnswer ['a', ' ', ' ', 'b']) = [0] ∧
      pySlice (joinSpace [['a'], ['b'], ['c']]) 0 (0 + (['a', ' ', ' ', 'b'] : List Char).length) ≠
        ['a', ' ', ' ', 'b'] ∧
      pySlice (joinSpace [['a'], ['b'], ['c']]) 0 (0 + (['a', ' ', ' ', 'b'] : List Char).length) ≠
        normalizeAnswer ['a', ' ', ' ', 'b'] := by
  refine ⟨by decide, by decide, by decide⟩

/-- C2 as amended: whenever the Answer Relocator resolves a span, the context
slice of the **normalized** answer text's length starting at the match index
equals the normalized answer text; this coincides with the `end_char` used
for span labelling exactly when the stored answer text is already
whitespace-normalized (lines 479–480 use the length of the stored, original
text, which differs when that text contains irregular whitespace). -/
theorem c2_relocated_span_matches (ctx t0 : List Char) (i : Nat)
    (h : relocate ctx (normalizeAnswer t0) = [i]) :
    pySlice ctx i (i + (normalizeAnswer t0).length) = normalizeAnswer t0 ∧
      (t0 = normalizeAnswer t0 → pySlice ctx i (i + t0.length) = t0) := by
  have hfind : pyFind ctx (normalizeAnswer t0) = some i := by
    unfold relocate at h
    cases hf : pyFind ctx (normalizeAnswer t0) with
    | none => rw [hf] at h; cases h
    | some j => rw [hf] at h; cases h; rfl
  have hsub := pyFind_spec (normalizeAnswer t0) ctx i hfind
  have hslice : pySlice ctx i (i + (normalizeAnswer t0).length) = normalizeAnswer t0 := by
    unfold pySlice
    rw [List.drop_take]
    have : i + (normalizeAnswer t0).length - i = (normalizeAnswer t0).length := by omega
    rw [this, hsub]
  refine ⟨hslice, fun heq => ?_⟩
  rw [← heq] at hslice
  exact hslice

theorem c2_witness :
    pySlice (joinSpace [['x', 'a'], ['b', 'y']]) 1
        (1 + (normalizeAnswer ['a', ' ', 'b']).length) = normalizeAnswer ['a', ' ', 'b'] ∧
      (['a', ' ', 'b'] = normalizeAnswer ['a', ' ', 'b'] →
        pySlice (joinSpace [['x', 'a'], ['b', 'y']]) 1 (1 + (['a', ' ', 'b'] : List Char).length) =
          ['a', ' ', 'b']) :=
  c2_relocated_span_matches (joinSpace [['x', 'a'], ['b', 'y']]) ['a', ' ', 'b'] 1 (by decide)

/-! ## C9 — argument validation -/

/-- C9: `parse_args` fails (raises the `ValueError` of line 257 or one of the
`assert`s of lines 261/264/267) exactly when no input source is given or some
provided train/validation/test file has an extension other than `csv` or
`json`; otherwise it returns normally. -/
lemma fileOk_eq_false (o : Option (List Char)) :
    fileOk o = false ↔ ∃ f, o = some f ∧ extOk f = false := by
  cases o <;> simp [fileOk]

theorem c9_parse_args_validation (a : QAArgs) :
    parseArgsValidate a = false ↔
      ((a.dataset_name = none ∧ a.train_file = none ∧ a.validation_file = none ∧
          a.test_file = none) ∨
        ∃ f, (a.train_file = some f ∨ a.validation_file = some f ∨ a.test_file = some f) ∧
          extOk f = false) := by
  obtain ⟨d, t, v, w⟩ := a
  unfold parseArgsValidate
  by_cases hP : d = none ∧ t = none ∧ v = none ∧ w = none
  · rw [if_pos hP]
    exact ⟨fun _ => Or.inl hP, fun _ => rfl⟩
  · rw [if_neg hP]
    constructor
    · intro hand
      have hsplit : fileOk t = false ∨ fileOk v = false ∨ fileOk w = false := by
        cases h1 : fileOk t <;> cases h2 : fileOk v <;> cases h3 : fileOk w <;>
          simp [h1, h2, h3] at hand ⊢
      refine Or.inr ?_
      rcases hsplit with h | h | h
      · obtain ⟨f, hf, hbad⟩ := (fileOk_eq_false t).mp h
        exact ⟨f, Or.inl hf, hbad⟩
      · obtain ⟨f, hf, hbad⟩ := (fileOk_eq_false v).mp h
        exact ⟨f, Or.inr (Or.inl hf), hbad⟩
      · obtain ⟨f, hf, hbad⟩ := (fileOk_eq_false w).mp h
        exact ⟨f, Or.inr (Or.inr hf), hbad⟩
    · intro h
      rcases h with hall | ⟨f, hor, hbad⟩
      · exact absurd hall hP
      · rcases hor with h1 | h1 | h1
        · have hb : fileOk t = false := (fileOk_eq_false t).mpr ⟨f, h1, hbad⟩
          simp [hb]
        · have hb : fileOk v = false := (fileOk_eq_false v).mpr ⟨f, h1, hbad⟩
          simp [hb]
        · have hb : fileOk w = false := (fileOk_eq_false w).mpr ⟨f, h1, hbad⟩
          simp [hb]

theorem c9_witness : parseArgsValidate ⟨none, none, none, none⟩ = false :=
  (c9_parse_args_validation ⟨none, none, none, none⟩).mpr (Or.inl ⟨rfl, rfl, rfl, rfl⟩)

/-! ## C6 / C7 — augmentation guards -/

lemma drawsReplace_ones (d : Nat) : drawsReplace (List.replicate 10 1) d = false := by
  unfold drawsReplace
  rw [List.length_replicate, List.getD_eq_getElem?_getD, List.getElem?_replicate,
    if_pos (Nat.mod_lt d (by norm_num))]
  rfl

lemma drawsReplace_zeros (d : Nat) : drawsReplace (List.replicate 10 0) d = true := by
  unfold drawsReplace
  rw [List.length_replicate, List.getD_eq_getElem?_getD, List.getElem?_replicate,
    if_pos (Nat.mod_lt d (by norm_num))]
  rfl

lemma augmentContextGo_get (table : List Char → Option (List (List Char)))
    (randomIndex : List Nat) (dF pF : Nat → Nat) (r : Nat × Nat) :
    ∀ (toks : List (List Char)) (idxs : List Nat) (c t : Nat) tok idx,
      toks[t]? = some tok → idxs[t]? = some idx →
      (augmentContextGo table randomIndex dF pF r c toks idxs)[t]? =
        some (augmentContextToken table randomIndex (dF (c + t)) (pF (c + t)) r tok idx) := by
  intro toks
  induction toks with
  | nil => intro idxs c t tok idx h; simp at h
  | cons tok0 toksRest ih =>
    intro idxs c t tok idx htok hidx
    cases idxs with
    | nil => simp at hidx
    | cons idx0 idxsRest =>
      cases t with
      | zero =>
        simp only [List.getElem?_cons_zero, Option.some.injEq] at htok hidx
        subst htok; subst hidx
        simp [augmentContextGo]
      | succ t' =>
        simp only [List.getElem?_cons_succ] at htok hidx
        have := ih idxsRest (c + 1) t' tok idx htok hidx
        simp only [augmentContextGo, List.getElem?_cons_succ]
        rw [this]
        have harg : c + 1 + t' = c + (t' + 1) := by omega
        rw [harg]

lemma augmentContextToken_in_range (table : List Char → Option (List (List Char)))
    (randomIndex : List Nat) (d p : Nat) (r : Nat × Nat) (tok : List Char) (idx : Nat)
    (h1 : r.1 ≤ idx) (h2 : idx ≤ r.2) :
    augmentContextToken table randomIndex d p r tok idx = tok := by
  unfold augmentContextToken
  rw [if_neg]
  simp only [not_not]
  exact ⟨h1, h2⟩

/-- C6 counterexample: with protected answer span `[2, 5)` (the answer starts
at character 2, inside the single context token `"abc"` whose char range
`[0, 3)` intersects it — `max 0 2 < min (0+3) 5`), a ratio-10 run substitutes
that token anyway, because line 417 only tests the token's **start** index
against the range. -/
theorem c6_counterexample :
    augmentContext (fun s => if s = ['a', 'b', 'c'] then some [['x', 'y', 'z']] else none)
        (List.replicate 10 0) (fun _ => 0) (fun _ => 0) (2, 5) [['a', 'b', 'c']] [0] =
      [['x', 'y', 'z']] ∧
      max 0 2 < min (0 + 3) 5 ∧ (['x', 'y', 'z'] : List Char) ≠ ['a', 'b', 'c'] := by
  refine ⟨by decide, by decide, by decide⟩

/-- C6 as amended: the augmenter never substitutes a context token whose
**start** index lies in the inclusive interval `[answer_start, answer_start +
len(normalized answer text)]` — that is exactly the guard of line 417; a token
that overlaps the protected span but starts before `answer_start` may still be
substituted. -/
theorem c6_protected_start_not_substituted (table : List Char → Option (List (List Char)))
    (randomIndex : List Nat) (dF pF : Nat → Nat) (r : Nat × Nat)
    (toks : List (List Char)) (idxs : List Nat) (t : Nat) (tok : List Char) (idx : Nat)
    (htok : toks[t]? = some tok) (hidx : idxs[t]? = some idx)
    (h1 : r.1 ≤ idx) (h2 : idx ≤ r.2) :
    (augmentContext table randomIndex dF pF r toks idxs)[t]? = some tok := by
  unfold augmentContext
  rw [augmentContextGo_get table randomIndex dF pF r toks idxs 0 t tok idx htok hidx,
    augmentContextToken_in_range table randomIndex _ _ r tok idx h1 h2]

theorem c6_witness :
    (augmentContext (fun s => if s = ['a', 'b', 'c'] then some [['x', 'y', 'z']] else none)
        (List.replicate 10 0) (fun _ => 0) (fun _ => 0) (0, 5) [['a', 'b', 'c']] [0])[0]? =
      some ['a', 'b', 'c'] :=
  c6_protected_start_not_substituted _ _ _ _ (0, 5) [['a', 'b', 'c']] [0] 0 ['a', 'b', 'c'] 0
    (by decide) (by decide) (by decide) (by decide)

lemma augmentContextToken_ones (table : List Char → Option (List (List Char)))
    (d p : Nat) (r : Nat × Nat) (tok : List Char) (idx : Nat) :
    augmentContextToken table (List.replicate 10 1) d p r tok idx = tok := by
  unfold augmentContextToken
  split
  · cases htab : table (pyLower tok) with
    | none => simp only [htab]
    | some cands =>
      simp only [htab]
      rw [drawsReplace_ones]
      simp
  · rfl

lemma augmentQuestionToken_ones (table : List Char → Option (List (List Char)))
    (d p : Nat) (tok : List Char) :
    augmentQuestionToken table (List.replicate 10 1) d p tok = tok := by
  unfold augmentQuestionToken
  cases htab : table (pyStrip (pyLower tok)) with
  | none => rfl
  | some cands =>
    simp only [htab]
    rw [drawsReplace_ones]
    simp

lemma augmentContextGo_ones (table : List Char → Option (List (List Char)))
    (dF pF : Nat → Nat) (r : Nat × Nat) :
    ∀ (toks : List (List Char)) (idxs : List Nat) (c : Nat), toks.length = idxs.length →
      augmentContextGo table (List.replicate 10 1) dF pF r c toks idxs = toks := by
  intro toks
  induction toks with
  | nil => intro idxs c _; rfl
  | cons tok toksRest ih =>
    intro idxs c h
    cases idxs with
    | nil => simp at h
    | cons idx idxsRest =>
      simp only [augmentContextGo]
      rw [augmentContextToken_ones, ih idxsRest (c + 1) (by simpa using h)]

lemma augmentQuestionGo_ones (table : List Char → Option (List (List Char)))
    (dF pF : Nat → Nat) :
    ∀ (toks : List (List Char)) (c : Nat),
      augmentQuestionGo table (List.replicate 10 1) dF pF c toks = toks := by
  intro toks
  induction toks with
  | nil => intro c; rfl
  | cons tok toksRest ih =>
    intro c
    simp only [augmentQuestionGo]
    rw [augmentQuestionToken_ones, ih (c + 1)]

lemma augmentQuestionGo_get (table : List Char → Option (List (List Char)))
    (randomIndex : List Nat) (dF pF : Nat → Nat) :
    ∀ (toks : List (List Char)) (c t : Nat) (tok : List Char), toks[t]? = some tok →
      (augmentQuestionGo table randomIndex dF pF c toks)[t]? =
        some (augmentQuestionToken table randomIndex (dF (c + t)) (pF (c + t)) tok) := by
  intro toks
  induction toks with
  | nil => intro c t tok h; simp at h
  | cons tok0 toksRest ih =>
    intro c t tok htok
    cases t with
    | zero =>
      simp only [List.getElem?_cons_zero, Option.some.injEq] at htok
      subst htok
      simp [augmentQuestionGo]
    | succ t' =>
      simp only [List.getElem?_cons_succ] at htok
      have := ih (c + 1) t' tok htok
      simp only [augmentQuestionGo, List.getElem?_cons_succ]
      rw [this]
      have harg : c + 1 + t' = c + (t' + 1) := by omega
      rw [harg]

lemma getD_mem_of_lt {α : Type} (l : List α) (i : Nat) (d : α) (h : i < l.length) :
    l.getD i d ∈ l := by
  rw [List.getD_eq_getElem?_getD, List.getElem?_eq_getElem h]
  exact List.getElem_mem h

/-- C7: with `ratio = 0` (`random_index` is ten copies of the keep marker 1)
no token is ever mutated, on either the context or the question side; with
`ratio = 10` (`random_index` is ten copies of the replace marker 0) every
eligible token — in the table after lowercasing (and stripping, on the
question side) and, for context tokens, starting outside the protected range —
is replaced by one of its table candidates (given a candidate exists). -/
theorem c7_ratio_extremes :
    (∀ (table : List Char → Option (List (List Char))) (dF pF : Nat → Nat) (r : Nat × Nat)
        (toks : List (List Char)) (idxs : List Nat), toks.length = idxs.length →
        augmentContext table (List.replicate 10 1) dF pF r toks idxs = toks) ∧
    (∀ (table : List Char → Option (List (List Char))) (dF pF : Nat → Nat)
        (toks : List (List Char)),
        augmentQuestion table (List.replicate 10 1) dF pF toks = toks) ∧
    (∀ (table : List Char → Option (List (List Char))) (dF pF : Nat → Nat) (r : Nat × Nat)
        (toks : List (List Char)) (idxs : List Nat) (t : Nat) (tok : List Char) (idx : Nat)
        (cands : List (List Char)),
        toks[t]? = some tok → idxs[t]? = some idx →
        ¬ (r.1 ≤ idx ∧ idx ≤ r.2) → table (pyLower tok) = some cands → cands ≠ [] →
        ∃ c ∈ cands,
          (augmentContext table (List.replicate 10 0) dF pF r toks idxs)[t]? = some c) ∧
    (∀ (table : List Char → Option (List (List Char))) (dF pF : Nat → Nat)
        (toks : List (List Char)) (t : Nat) (tok : List Char) (cands : List (List Char)),
        toks[t]? = some tok → table (pyStrip (pyLower tok)) = some cands → cands ≠ [] →
        ∃ c ∈ cands, (augmentQuestion table (List.replicate 10 0) dF pF toks)[t]? = some c) := by
  refine ⟨?_, ?_, ?_, ?_⟩
  · intro table dF pF r toks idxs h
    exact augmentContextGo_ones table dF pF r toks idxs 0 h
  · intro table dF pF toks
    exact augmentQuestionGo_ones table dF pF toks 0
  · intro table dF pF r toks idxs t tok idx cands htok hidx hrange htab hne
    have hget := augmentContextGo_get table (List.replicate 10 0) dF pF r toks idxs 0 t tok idx
      htok hidx
    have hmod : pF (0 + t) % cands.length < cands.length :=
      Nat.mod_lt _ (List.length_pos.mpr hne)
    refine ⟨cands.getD (pF (0 + t) % cands.length) tok, getD_mem_of_lt _ _ _ hmod, ?_⟩
    rw [augmentContext, hget]
    unfold augmentContextToken
    rw [if_pos hrange, htab, drawsReplace_zeros]
    rfl
  · intro table dF pF toks t tok cands htok htab hne
    have hget := augmentQuestionGo_get table (List.replicate 10 0) dF pF toks 0 t tok htok
    have hmod : pF (0 + t) % cands.length < cands.length :=
      Nat.mod_lt _ (List.length_pos.mpr hne)
    refine ⟨cands.getD (pF (0 + t) % cands.length) tok, getD_mem_of_lt _ _ _ hmod, ?_⟩
    rw [augmentQuestion, hget]
    unfold augmentQuestionToken
    rw [htab, drawsReplace_zeros]
    rfl

theorem c7_witness :
    augmentContext (fun s => if s = ['a'] then some [['b']] else none) (List.replicate 10 1)
        (fun _ => 0) (fun _ => 0) (5, 9) [['a']] [0] = [['a']] ∧
      ∃ c ∈ [['b']],
        (augmentContext (fun s => if s = ['a'] then some [['b']] else none)
          (List.replicate 10 0) (fun _ => 0) (fun _ => 0) (5, 9) [['a']] [0])[0]? = some c :=
  ⟨c7_ratio_extremes.1 _ _ _ _ _ _ (by decide),
    c7_ratio_extremes.2.2.1 _ _ _ _ [['a']] [0] 0 ['a'] 0 [['b']] (by decide) (by decide)
      (by decide) (by decide) (by decide)⟩

/-! ## C3 — scheduler rates -/

lemma applyRates_eq : ∀ (gs rs : List Real), gs.length = rs.length → applyRates gs rs = rs := by
  intro gs
  induction gs with
  | nil =>
    intro rs h
    have : rs = [] := by
      cases rs
      · rfl
      · simp at h
    rw [this]
    rfl
  | cons g gs ih =>
    intro rs h
    cases rs with
    | nil => simp at h
    | cons r rs' =>
      show r :: applyRates gs rs' = r :: rs'
      rw [ih rs' (by simpa using h)]

lemma updateLearningRate_optLR (s : SchedState) (h : s.optLR.length = s.lrMul.length) :
    (updateLearningRate s).optLR =
      if s.nSteps + 1 < s.nWarmupSteps then
        (schedLrStep s).map (fun st => ((s.nSteps + 1 : Nat) : Real) * st)
      else
        (schedDecayFactor s).map
          (fun d => d * ((s.nSteps + 1 : Nat) : Real) ^ (-(1/2 : Real))) := by
  unfold updateLearningRate
  dsimp only
  rw [applyRates_eq]
  split <;> simp [schedLrStep, schedDecayFactor, h]

lemma schedAfter_spec (lr : List Real) (nw : Nat) :
    ∀ n, (schedAfter lr nw n).lrMul = lr ∧ (schedAfter lr nw n).nWarmupSteps = nw ∧
      (schedAfter lr nw n).nSteps = n ∧ (schedAfter lr nw n).optLR.length = lr.length := by
  intro n
  induction n with
  | zero => exact ⟨rfl, rfl, rfl, rfl⟩
  | succ m ih =>
    obtain ⟨h1, h2, h3, h4⟩ := ih
    have hopt := updateLearningRate_optLR (schedAfter lr nw m) (by rw [h4, h1])
    refine ⟨h1, h2, ?_, ?_⟩
    · show (schedAfter lr nw m).nSteps + 1 = m + 1
      rw [h3]
    · show (updateLearningRate (schedAfter lr nw m)).optLR.length = lr.length
      rw [hopt]
      split <;> simp [schedLrStep, schedDecayFactor, h1]

/-- C3: after `n` update calls (`n ≥ 1`) the rate applied to parameter group
`i` is `n * lr_i / n_warmup` while `n < n_warmup` and
`lr_i * sqrt(n_warmup) * n^(-1/2)` afterwards — the linear-warmup /
inverse-square-root schedule of `ReverseSqrtScheduler` (lines 47–72). -/
theorem c3_scheduler_rates (lr : List Real) (nw : Nat) (hnw : 0 < nw) (n : Nat) (hn : 0 < n)
    (i : Nat) (hi : i < lr.length) :
    appliedRate lr nw n i =
      if n < nw then (n : Real) * lr.getD i 0 / nw
      else lr.getD i 0 * Real.sqrt nw * (n : Real) ^ (-(1/2 : Real)) := by
  obtain ⟨m, rfl⟩ : ∃ m, n = m + 1 := ⟨n - 1, by omega⟩
  obtain ⟨h1, h2, h3, h4⟩ := schedAfter_spec lr nw m
  have hopt := updateLearningRate_optLR (schedAfter lr nw m) (by rw [h4, h1])
  unfold appliedRate
  rw [show schedAfter lr nw (m + 1) = updateLearningRate (schedAfter lr nw m) from rfl, hopt,
    h2, h3]
  have hgetD : lr.getD i 0 = lr[i] := by
    rw [List.getD_eq_getElem?_getD, List.getElem?_eq_getElem hi]
    rfl
  by_cases hw : m + 1 < nw
  · rw [if_pos hw, if_pos hw, schedLrStep, h1, h2, List.map_map, List.getD_eq_getElem?_getD,
      List.getElem?_map, List.getElem?_eq_getElem hi, hgetD]
    show ((m + 1 : Nat) : Real) * ((lr[i] - 0) / (nw : Real)) = _
    ring
  · rw [if_neg hw, if_neg hw, schedDecayFactor, h1, h2, List.map_map,
      List.getD_eq_getElem?_getD, List.getElem?_map, List.getElem?_eq_getElem hi, hgetD]
    show lr[i] * Real.sqrt (nw : Real) * ((m + 1 : Nat) : Real) ^ (-(1/2 : Real)) = _
    ring

theorem c3_witness :
    appliedRate [8] 4 1 0 = 2 ∧ appliedRate [8] 4 2 0 = 4 ∧ appliedRate [8] 4 3 0 = 6 := by
  refine ⟨?_, ?_, ?_⟩ <;>
  · rw [c3_scheduler_rates [8] 4 (by norm_num) _ (by norm_num) 0 (by norm_num)]
    norm_num [List.getD]

/-! ## C4 — logit stitcher -/

lemma stitchOf_length (maxLen dl : Nat) (rows : List (List Rat)) :
    (stitchOf maxLen dl rows).length = dl := by
  simp only [stitchOf, List.length_append, List.length_take, List.length_map,
    List.length_replicate]
  omega

lemma stitchOf_take (maxLen dl : Nat) (rows : List (List Rat)) :
    stitchOf maxLen dl (rows.take dl) = stitchOf maxLen dl rows := by
  unfold stitchOf
  have h1 : ((rows.take dl).map (padRow maxLen)).take dl = (rows.map (padRow maxLen)).take dl := by
    rw [← List.map_take, List.take_take]
    simp
  have h2 : dl - (rows.take dl).length = dl - rows.length := by
    simp only [List.length_take]
    omega
  rw [h1, h2]

lemma zipWith_replicate_left {α β γ : Type} (f : α → β → γ) (b : α) :
    ∀ R : List β, List.zipWith f (List.replicate R.length b) R = R.map (fun s => f b s) := by
  intro R
  induction R with
  | nil => rfl
  | cons x xs ih =>
    simp only [List.length_cons, List.replicate_succ, List.zipWith_cons_cons, List.map_cons, ih]

lemma padRow_length (maxLen : Nat) (r : List Rat) (h : r.length ≤ maxLen) :
    (padRow maxLen r).length = maxLen := by
  simp only [padRow, List.length_append, List.length_replicate]
  omega

/-- Writing a rectangular block `R` of width `cols ≤ maxLen` at row
`pre.length` of the partially-filled stitch array extends the stitch by `R`'s
rows, provided the write fits (`pre.length + R.length ≤ dl`) and the
destination row slice `[pre.length, b)` covers exactly `R.length` rows. -/
lemma assign_stitch (maxLen dl : Nat) (pre R : List (List Rat)) (cols b : Nat)
    (hcolsR : ∀ r ∈ R, r.length = cols) (hcols : cols ≤ maxLen)
    (hfit : pre.length + R.length ≤ dl)
    (hb : min b dl = pre.length + R.length) :
    assignRegion (stitchOf maxLen dl pre) pre.length b cols R =
      some (stitchOf maxLen dl (pre ++ R)) := by
  have hn : pre.length ≤ dl := by omega
  have hAfull : (pre.map (padRow maxLen)).take dl = pre.map (padRow maxLen) :=
    List.take_of_length_le (by simpa using hn)
  have hD : stitchOf maxLen dl pre =
      pre.map (padRow maxLen) ++ List.replicate (dl - pre.length) (blankRow maxLen) := by
    rw [stitchOf, hAfull]
  have hDlen : (stitchOf maxLen dl pre).length = dl := stitchOf_length maxLen dl pre
  have hlo : min pre.length (stitchOf maxLen dl pre).length = pre.length := by
    rw [hDlen]; omega
  have hhi : min b (stitchOf maxLen dl pre).length = pre.length + R.length := by
    rw [hDlen]; exact hb
  have hdrop : (stitchOf maxLen dl pre).drop pre.length =
      List.replicate (dl - pre.length) (blankRow maxLen) := by
    rw [hD, List.drop_left' (by simp)]
  have hregion : ((stitchOf maxLen dl pre).drop pre.length).take
      (pre.length + R.length - pre.length) = List.replicate R.length (blankRow maxLen) := by
    rw [hdrop]
    have : pre.length + R.length - pre.length = R.length := by omega
    rw [this, List.take_replicate]
    congr 1
    omega
  unfold assignRegion
  dsimp only
  rw [hlo, hhi, hregion]
  rw [if_neg (not_not_intro hcolsR)]
  rw [if_neg (not_not_intro ?hreg)]
  case hreg =>
    intro r hr
    rw [(List.mem_replicate.mp hr).2]
    simpa [blankRow] using hcols
  rw [if_pos (by simp)]
  congr 1
  have htake : (stitchOf maxLen dl pre).take pre.length = pre.map (padRow maxLen) := by
    rw [hD, List.take_left' (by simp)]
  have hzip : List.zipWith (fun old s => s.take cols ++ old.drop cols)
      (List.replicate R.length (blankRow maxLen)) R = R.map (padRow maxLen) := by
    rw [zipWith_replicate_left]
    refine List.map_congr_left ?_
    intro s hs
    have hslen : s.length = cols := hcolsR s hs
    rw [show s.take cols = s by rw [← hslen, List.take_length]]
    simp only [blankRow, List.drop_replicate, padRow, hslen]
  have hdrophi : (stitchOf maxLen dl pre).drop (pre.length + R.length) =
      List.replicate (dl - pre.length - R.length) (blankRow maxLen) := by
    rw [hD, show pre.length + R.length = (pre.map (padRow maxLen)).length + R.length by simp,
      List.drop_append, List.drop_replicate]
  rw [htake, hzip, hdrophi, stitchOf, List.map_append, List.take_append_eq_append_take,
    List.take_of_length_le (by simpa using hn),
    List.take_of_length_le (by simp only [List.length_map]; omega), List.append_assoc]
  simp only [List.length_append]
  rw [show dl - pre.length - R.length = dl - (pre.length + R.length) by omega,
    List.append_assoc]

lemma fillLoop_stitch (maxLen dl : Nat) :
    ∀ (batches : List (List (List Rat))) (pre : List (List Rat)),
      (∀ b ∈ batches, (∀ r ∈ b, r.length = (b.headD []).length) ∧
        (b.headD []).length ≤ maxLen) →
      pre.length + (batches.dropLast.map List.length).sum ≤ dl →
      pre.length ≤ dl →
      fillLoop dl (stitchOf maxLen dl pre) pre.length batches =
        some (stitchOf maxLen dl (pre ++ batches.flatten)) := by
  intro batches
  induction batches with
  | nil => intro pre _ _ _; simp [fillLoop]
  | cons batch rest ih =>
    intro pre hb hpre hlen
    obtain ⟨hrect, hwide⟩ := hb batch (List.mem_cons_self _ _)
    by_cases hlt : pre.length + batch.length < dl
    · have hassign := assign_stitch maxLen dl pre batch (batch.headD []).length
        (pre.length + batch.length) hrect hwide (by omega) (by omega)
      rw [fillLoop, if_pos hlt, hassign]
      dsimp only
      have hrest := ih (pre ++ batch)
        (fun b hbmem => hb b (List.mem_cons_of_mem _ hbmem))
        (by
          cases rest with
          | nil => simp; omega
          | cons r rs =>
            simp only [List.dropLast_cons₂, List.map_cons, List.sum_cons,
              List.length_append] at hpre ⊢
            omega)
        (by simp only [List.length_append]; omega)
      rw [show pre.length + batch.length = (pre ++ batch).length by simp]
      rw [hrest]
      simp [List.append_assoc]
    · cases rest with
      | nil =>
        have hsrc : pyTakeSlice batch ((dl : Int) - (pre.length : Int)) =
            batch.take (dl - pre.length) := by
          rw [pyTakeSlice, if_pos (by omega)]
          congr 1
          omega
        have hsrclen : (batch.take (dl - pre.length)).length = dl - pre.length := by
          simp only [List.length_take]
          omega
        have hassign := assign_stitch maxLen dl pre (batch.take (dl - pre.length))
          (batch.headD []).length (stitchOf maxLen dl pre).length
          (fun r hr => hrect r (List.take_subset _ _ hr))
          hwide (by omega) (by rw [stitchOf_length, hsrclen]; omega)
        rw [fillLoop, if_neg hlt, hsrc, hassign]
        dsimp only
        have hflat : (stitchOf maxLen dl (pre ++ batch.take (dl - pre.length))) =
            stitchOf maxLen dl (pre ++ batch) := by
          have h1 : (pre ++ batch).take dl = pre ++ batch.take (dl - pre.length) := by
            rw [List.take_append_eq_append_take, List.take_of_length_le (by omega)]
          rw [← stitchOf_take maxLen dl (pre ++ batch), h1]
        rw [hflat]
        rw [show (pre.length + batch.length) = (pre ++ batch).length by simp]
        rw [show ([batch] : List (List (List Rat))).flatten = batch by simp]
        rfl
      | cons r rs =>
        have heq : pre.length + batch.length = dl := by
          simp only [List.dropLast_cons₂, List.map_cons, List.sum_cons] at hpre
          omega
        have hsrc : pyTakeSlice batch ((dl : Int) - (pre.length : Int)) = batch := by
          rw [pyTakeSlice, if_pos (by omega)]
          have : ((dl : Int) - (pre.length : Int)).toNat = batch.length := by omega
          rw [this, List.take_length]
        have hassign := assign_stitch maxLen dl pre batch (batch.headD []).length
          (stitchOf maxLen dl pre).length hrect hwide (by omega)
          (by rw [stitchOf_length]; omega)
        rw [fillLoop, if_neg hlt, hsrc, hassign]
        dsimp only
        have hrest := ih (pre ++ batch)
          (fun b hbmem => hb b (List.mem_cons_of_mem _ hbmem))
          (by
            simp only [List.dropLast_cons₂, List.map_cons, List.sum_cons,
              List.length_append] at hpre ⊢
            omega)
          (by simp only [List.length_append]; omega)
        rw [show pre.length + batch.length = (pre ++ batch).length by simp]
        rw [hrest]
        simp [List.append_assoc]

/-- C4 counterexample: `dl = 1`, `max_columns = 1` with batch row-counts
`[3, 4]`.  The first (non-final) batch already overflows and is silently
truncated; the second write then assigns a 2-row source into an empty
destination slice, a numpy shape mismatch — the stitcher raises instead of
returning an array of shape `(1, 1)`. -/
theorem c4_counterexample :
    create_and_fill_np_array [[[1], [2], [3]], [[4], [5], [6], [7]]] 1 1 = none := by decide

/-- C4 as amended: provided the cumulative row count of every batch before
the last does not exceed `dataset_length` (so only the final batch can
overflow — the situation the loop is written for), the stitcher returns the
matrix of shape `(dataset_length, max_columns)` whose rows are the batches'
rows in arrival order (each padded on the right with the sentinel −100 up to
`max_columns`), with the final batch's overflow rows dropped and all
never-written rows still all-sentinel.  Without that precondition the numpy
block assignment can fail on a shape mismatch and nothing is returned. -/
theorem c4_logit_stitcher (batches : List (List (List Rat))) (dl maxLen : Nat)
    (hb : ∀ b ∈ batches, (∀ r ∈ b, r.length = (b.headD []).length) ∧
      (b.headD []).length ≤ maxLen)
    (hpre : (batches.dropLast.map List.length).sum ≤ dl) :
    create_and_fill_np_array batches dl maxLen = some (stitchOf maxLen dl batches.flatten) ∧
      (stitchOf maxLen dl batches.flatten).length = dl ∧
      ∀ row ∈ stitchOf maxLen dl batches.flatten, row.length = maxLen := by
  have h0 : stitchOf maxLen dl [] = List.replicate dl (blankRow maxLen) := by
    simp [stitchOf]
  have hmain := fillLoop_stitch maxLen dl batches [] hb (by simpa using hpre) (by simp)
  rw [h0] at hmain
  simp only [List.length_nil, List.nil_append] at hmain
  refine ⟨hmain, stitchOf_length maxLen dl batches.flatten, ?_⟩
  intro row hrow
  rw [stitchOf] at hrow
  rcases List.mem_append.mp hrow with h | h
  · have h2 := List.take_subset _ _ h
    obtain ⟨r, hr, hrow_eq⟩ := List.mem_map.mp h2
    obtain ⟨b2, hb2, hrb⟩ := List.mem_flatten.mp hr
    obtain ⟨hrect2, hwide2⟩ := hb b2 hb2
    rw [← hrow_eq]
    exact padRow_length maxLen r (by rw [hrect2 r hrb]; exact hwide2)
  · rw [(List.mem_replicate.mp h).2]
    simp [blankRow]

theorem c4_witness :
    create_and_fill_np_array [[[1, 2], [3, 4]], [[5, 6], [7, 8]], [[9, 9], [8, 8]]] 5 3 =
      some (stitchOf 3 5 [[1, 2], [3, 4], [5, 6], [7, 8], [9, 9], [8, 8]]) :=
  (c4_logit_stitcher [[[1, 2], [3, 4]], [[5, 6], [7, 8]], [[9, 9], [8, 8]]] 5 3
    (by decide) (by decide)).1

/-! ## C1 / C8 — span resolver -/

lemma pyGetI_natCast {α : Type} (l : List α) (k : Nat) : pyGetI l (k : Int) = l[k]? := by
  simp [pyGetI]

lemma scanFwd_spec (seqIds : List (Option Nat)) (target : Nat) :
    ∀ d i j, j - i ≤ d → i ≤ j → j < seqIds.length → seqIds[j]? = some (some target) →
      ∃ r, scanFwd seqIds target i = some r ∧ i ≤ r ∧ r < seqIds.length ∧
        seqIds[r]? = some (some target) := by
  intro d
  induction d with
  | zero =>
    intro i j hd hij hj hmem
    have hji : i = j := by omega
    subst hji
    have hi : i < seqIds.length := hj
    rw [scanFwd, dif_pos hi]
    have helem : seqIds[i] = some target := by
      rw [List.getElem?_eq_getElem hi] at hmem
      exact Option.some.inj hmem
    rw [if_pos (by simp [helem])]
    exact ⟨i, rfl, le_refl i, hi, hmem⟩
  | succ d ih =>
    intro i j hd hij hj hmem
    have hi : i < seqIds.length := by omega
    rw [scanFwd, dif_pos hi]
    by_cases hbeq : seqIds[i] = some target
    · rw [if_pos (by simp [hbeq])]
      exact ⟨i, rfl, le_refl i, hi, by rw [List.getElem?_eq_getElem hi, hbeq]⟩
    · rw [if_neg (by simp [hbeq])]
      have hne : i ≠ j := by
        intro hcontra
        subst hcontra
        rw [List.getElem?_eq_getElem hi] at hmem
        exact hbeq (Option.some.inj hmem)
      obtain ⟨r, hr, hir, hrlen, hrmem⟩ := ih (i + 1) j (by omega) (by omega) hj hmem
      exact ⟨r, hr, by omega, hrlen, hrmem⟩

lemma scanBackFrom_spec (seqIds : List (Option Nat)) (target : Nat) :
    ∀ k j, j ≤ k → seqIds[j]? = some (some target) →
      ∃ r, scanBackFrom seqIds target k = some r ∧ r ≤ k ∧
        seqIds[r]? = some (some target) := by
  intro k
  induction k with
  | zero =>
    intro j hj hmem
    have hj0 : j = 0 := by omega
    subst hj0
    rw [scanBackFrom, if_pos (by simp [hmem])]
    exact ⟨0, rfl, le_refl 0, hmem⟩
  | succ k ih =>
    intro j hj hmem
    by_cases hbeq : seqIds[k + 1]? = some (some target)
    · rw [scanBackFrom, if_pos (by simp [hbeq])]
      exact ⟨k + 1, rfl, le_refl _, hbeq⟩
    · rw [scanBackFrom, if_neg (by simp [hbeq])]
      have hne : j ≠ k + 1 := fun hcontra => hbeq (hcontra ▸ hmem)
      obtain ⟨r, hr, hrk, hrmem⟩ := ih j (by omega) hmem
      exact ⟨r, hr, by omega, hrmem⟩

lemma tightenStart_spec (offsets : List (Nat × Nat)) (c : Nat) :
    ∀ d i, offsets.length - i ≤ d → i ≤ offsets.length →
      i ≤ tightenStart offsets c i ∧ tightenStart offsets c i ≤ offsets.length ∧
      (∀ j, i ≤ j → j < tightenStart offsets c i →
        ∃ o, offsets[j]? = some o ∧ o.1 ≤ c) ∧
      (tightenStart offsets c i < offsets.length →
        ∃ o, offsets[tightenStart offsets c i]? = some o ∧ c < o.1) := by
  intro d
  induction d with
  | zero =>
    intro i hd hle
    have hi : ¬ i < offsets.length := by omega
    rw [tightenStart, dif_neg hi]
    exact ⟨le_refl i, hle, fun j h1 h2 => absurd (lt_of_le_of_lt h1 h2) (lt_irrefl i),
      fun h => absurd h hi⟩
  | succ d ih =>
    intro i hd hle
    by_cases hi : i < offsets.length
    · by_cases hc : offsets[i].1 ≤ c
      · have hstep : tightenStart offsets c i = tightenStart offsets c (i + 1) := by
          rw [tightenStart, dif_pos hi, if_pos hc]
        obtain ⟨h1, h2, h3, h4⟩ := ih (i + 1) (by omega) (by omega)
        rw [hstep]
        refine ⟨by omega, h2, ?_, h4⟩
        intro j hj1 hj2
        by_cases hji : j = i
        · subst hji
          exact ⟨offsets[j], List.getElem?_eq_getElem hi, hc⟩
        · exact h3 j (by omega) hj2
      · have hstep : tightenStart offsets c i = i := by
          rw [tightenStart, dif_pos hi, if_neg hc]
        rw [hstep]
        exact ⟨le_refl i, by omega,
          fun j hj1 hj2 => absurd (lt_of_le_of_lt hj1 hj2) (lt_irrefl i),
          fun _ => ⟨offsets[i], List.getElem?_eq_getElem hi, by omega⟩⟩
    · have hstep : tightenStart offsets c i = i := by
        rw [tightenStart, dif_neg hi]
      rw [hstep]
      exact ⟨le_refl i, hle, fun j hj1 hj2 => absurd (lt_of_le_of_lt hj1 hj2) (lt_irrefl i),
        fun h => absurd h hi⟩

lemma tightenEndAux_spec (offsets : List (Nat × Nat)) (c : Nat) :
    ∀ k fuel, k < offsets.length → k + 1 ≤ fuel →
      (∃ j o, j ≤ k ∧ offsets[j]? = some o ∧ o.2 < c) →
      ∃ r o, tightenEndAux offsets c fuel (k : Int) = some ((r : Nat) : Int) ∧ r ≤ k ∧
        offsets[r]? = some o ∧ o.2 < c ∧
        ∀ m om, r < m → m ≤ k → offsets[m]? = some om → c ≤ om.2 := by
  intro k
  induction k with
  | zero =>
    intro fuel hk hfuel hex
    obtain ⟨f, rfl⟩ : ∃ f, fuel = f + 1 := ⟨fuel - 1, by omega⟩
    obtain ⟨j, o, hj, ho, hlt⟩ := hex
    have hj0 : j = 0 := by omega
    subst hj0
    rw [tightenEndAux, pyGetI_natCast offsets 0, ho]
    dsimp only
    rw [if_neg (by omega)]
    exact ⟨0, o, rfl, le_refl 0, ho, hlt, fun m om h1 h2 => by omega⟩
  | succ k ih =>
    intro fuel hk hfuel hex
    obtain ⟨f, rfl⟩ : ∃ f, fuel = f + 1 := ⟨fuel - 1, by omega⟩
    have hget : pyGetI offsets ((k + 1 : Nat) : Int) = offsets[k + 1]? :=
      pyGetI_natCast offsets (k + 1)
    have hk1 : k + 1 < offsets.length := hk
    have ho1 : offsets[k + 1]? = some offsets[k + 1] := List.getElem?_eq_getElem hk1
    rw [tightenEndAux, hget, ho1]
    dsimp only
    by_cases hc : c ≤ offsets[k + 1].2
    · rw [if_pos hc]
      obtain ⟨j, o, hj, ho, hlt⟩ := hex
      have hjk : j ≤ k := by
        rcases Nat.lt_or_ge j (k + 1) with h | h
        · omega
        · exfalso
          have hj1 : j = k + 1 := by omega
          subst hj1
          rw [ho1] at ho
          have heqo := Option.some.inj ho
          rw [← heqo] at hlt
          omega
      have hcast : ((k + 1 : Nat) : Int) - 1 = ((k : Nat) : Int) := by omega
      rw [hcast]
      obtain ⟨r, o2, hr, hrk, hro, hrlt, hmax⟩ :=
        ih f (by omega) (by omega) ⟨j, o, hjk, ho, hlt⟩
      refine ⟨r, o2, hr, by omega, hro, hrlt, ?_⟩
      intro m om h1 h2 hm
      by_cases hmk : m = k + 1
      · subst hmk
        rw [ho1] at hm
        rw [← Option.some.inj hm]
        exact hc
      · exact hmax m om h1 (by omega) hm
    · rw [if_neg hc]
      exact ⟨k + 1, offsets[k + 1], rfl, le_refl _, ho1, by omega,
        fun m om h1 h2 => by omega⟩

lemma tightenEnd_spec (offsets : List (Nat × Nat)) (c : Nat) (k : Nat)
    (hk : k < offsets.length)
    (hex : ∃ j o, j ≤ k ∧ offsets[j]? = some o ∧ o.2 < c) :
    ∃ r o, tightenEnd offsets c (k : Int) = some ((r : Nat) : Int) ∧ r ≤ k ∧
      offsets[r]? = some o ∧ o.2 < c ∧
      ∀ m om, r < m → m ≤ k → offsets[m]? = some om → c ≤ om.2 := by
  unfold tightenEnd
  have hfuel : ((k : Int) + offsets.length + 2).toNat = k + offsets.length + 2 := by omega
  rw [hfuel]
  exact tightenEndAux_spec offsets c k (k + offsets.length + 2) hk (by omega) hex

/-- C1 counterexample: a padded feature whose stored answer text is empty and
starts at character 0 (`end_char = 0`).  The guard passes, but the
end-tightening loop `while offsets[i][1] >= end_char` never finds an offset
end below 0, walks through Python's negative aliasing and raises
`IndexError`: no label pair is emitted at all. -/
theorem c1_counterexample :
    resolveSpan 101 true ⟨[101, 5, 6, 102], [(0, 0), (0, 1), (2, 3), (0, 0)],
      [none, some 1, some 1, none]⟩ [0] [] = none := by
  simp [resolveSpan, scanFwd, scanBackFrom, tightenStart, tightenEnd, tightenEndAux, pyGetI,
    List.indexOf, List.findIdx, List.findIdx.go]

/-- C1 as amended: for a well-formed feature — `sequence_ids` and
`offset_mapping` of the same length as `input_ids`, containing at least one
context marker, `input_ids` containing the CLS id — and an answer that is
either unanswerable or non-degenerate (`end_char ≥ 1`, with the CLS offset
`(0, 0)` in front as the tokenizer emits), the resolver emits exactly one
`(start_position, end_position)` pair and both indices lie in
`[0, len(input_ids))`.  Without the non-degeneracy condition the
end-tightening scan runs off the list and nothing is emitted. -/
theorem c1_span_resolver_in_range (clsId : Nat) (padOnRight : Bool) (f : QAFeature)
    (answerStart : List Nat) (answerText : List Char)
    (hcls : clsId ∈ f.input_ids)
    (hlen1 : f.seqIds.length = f.input_ids.length)
    (hlen2 : f.offsets.length = f.input_ids.length)
    (hctx : ∃ j, j < f.seqIds.length ∧
      f.seqIds[j]? = some (some (if padOnRight then 1 else 0)))
    (hdeg : answerStart ≠ [] → f.offsets[0]? = some (0, 0) ∧
      1 ≤ answerStart.headD 0 + answerText.length) :
    ∃ s e : Int, resolveSpan clsId padOnRight f answerStart answerText = some (s, e) ∧
      0 ≤ s ∧ s < (f.input_ids.length : Int) ∧ 0 ≤ e ∧ e < (f.input_ids.length : Int) := by
  have hclsidx : f.input_ids.indexOf clsId < f.input_ids.length :=
    List.indexOf_lt_length.mpr hcls
  have hidspos : 0 < f.input_ids.length := by omega
  unfold resolveSpan
  rw [if_pos hcls]
  by_cases hempty : answerStart.isEmpty
  · rw [if_pos hempty]
    exact ⟨_, _, rfl, Int.natCast_nonneg _, by exact_mod_cast hclsidx,
      Int.natCast_nonneg _, by exact_mod_cast hclsidx⟩
  · rw [if_neg hempty]
    dsimp only
    have hne : answerStart ≠ [] := by
      intro h
      exact hempty (by simp [h])
    obtain ⟨hdeg0, hdeg1⟩ := hdeg hne
    obtain ⟨j, hjlen, hjmem⟩ := hctx
    obtain ⟨tsi, htsiEq, _, htsilen, htsimem⟩ :=
      scanFwd_spec f.seqIds (if padOnRight then 1 else 0) j 0 j (by omega) (by omega)
        hjlen hjmem
    obtain ⟨tei, hteiEq, hteile, hteimem⟩ :=
      scanBackFrom_spec f.seqIds (if padOnRight then 1 else 0) (f.input_ids.length - 1) j
        (by omega) hjmem
    have htsioffl : tsi < f.offsets.length := by omega
    have hteioffl : tei < f.offsets.length := by omega
    have htsioff : f.offsets[tsi]? = some f.offsets[tsi] := List.getElem?_eq_getElem htsioffl
    have hteioff : f.offsets[tei]? = some f.offsets[tei] := List.getElem?_eq_getElem hteioffl
    rw [htsiEq, hteiEq]
    dsimp only
    rw [htsioff, hteioff]
    dsimp only
    by_cases hguard : f.offsets[tsi].1 ≤ answerStart.headD 0 ∧
        answerStart.headD 0 + answerText.length ≤ f.offsets[tei].2
    · rw [if_neg (not_not_intro hguard)]
      obtain ⟨hts1, hts2, hts3, hts4⟩ :=
        tightenStart_spec f.offsets (answerStart.headD 0) f.offsets.length tsi
          (by omega) (by omega)
      have htsgt : tsi + 1 ≤ tightenStart f.offsets (answerStart.headD 0) tsi := by
        rcases Nat.lt_or_ge tsi (tightenStart f.offsets (answerStart.headD 0) tsi) with h | h
        · omega
        · exfalso
          have heq : tightenStart f.offsets (answerStart.headD 0) tsi = tsi := by omega
          obtain ⟨o, hoeq, hgt⟩ := hts4 (by omega)
          rw [heq, htsioff] at hoeq
          have heqo := Option.some.inj hoeq
          rw [← heqo] at hgt
          omega
      obtain ⟨r, o, hrEq, hrle, hro, hrlt, hmax⟩ :=
        tightenEnd_spec f.offsets (answerStart.headD 0 + answerText.length) tei hteioffl
          ⟨0, (0, 0), Nat.zero_le tei, hdeg0, by omega⟩
      have hrtei : r < tei := by
        rcases Nat.lt_or_ge r tei with h | h
        · exact h
        · exfalso
          have heq : r = tei := by omega
          subst heq
          rw [hteioff] at hro
          have heqo := Option.some.inj hro
          rw [← heqo] at hrlt
          omega
      rw [hrEq]
      dsimp only
      refine ⟨_, _, rfl, ?_, ?_, ?_, ?_⟩
      · omega
      · omega
      · omega
      · omega
    · rw [if_pos hguard]
      exact ⟨_, _, rfl, Int.natCast_nonneg _, by exact_mod_cast hclsidx,
        Int.natCast_nonneg _, by exact_mod_cast hclsidx⟩

theorem c1_witness :
    ∃ s e : Int,
      resolveSpan 101 true ⟨[101, 11, 12, 102], [(0, 0), (0, 1), (2, 3), (0, 0)],
        [none, some 1, some 1, none]⟩ [0] ['x'] = some (s, e) ∧
      0 ≤ s ∧ s < ((4 : Nat) : Int) ∧ 0 ≤ e ∧ e < ((4 : Nat) : Int) :=
  c1_span_resolver_in_range 101 true
    ⟨[101, 11, 12, 102], [(0, 0), (0, 1), (2, 3), (0, 0)], [none, some 1, some 1, none]⟩
    [0] ['x'] (by decide) (by decide) (by decide) ⟨1, by decide, by decide⟩
    (fun _ => ⟨by decide, by decide⟩)

/-- C8 counterexample: feature with subword offsets `(0,0) (0,3) (4,7) (0,0)`
and the answer `[1, 2)` — fully contained in the covered context window
`[0, 7)` (`0 ≤ 1` and `2 ≤ 7`), but starting mid-token.  The resolver picks
token span `(1, 1)`, whose offset range is `(0, 3)`: it neither begins at
`char_start = 1` nor ends at `char_end = 2`. -/
theorem c8_counterexample :
    resolveSpan 101 true ⟨[101, 11, 12, 102], [(0, 0), (0, 3), (4, 7), (0, 0)],
      [none, some 1, some 1, none]⟩ [1] ['x'] = some (1, 1) ∧
    ((0 : Nat) ≤ 1 ∧ 1 + 1 ≤ 7) ∧ ¬ ((0 : Nat) = 1 ∧ (3 : Nat) = 1 + 1) := by
  refine ⟨?_, by decide, by decide⟩
  simp [resolveSpan, scanFwd, scanBackFrom, tightenStart, tightenEnd, tightenEndAux, pyGetI,
    List.indexOf, List.findIdx, List.findIdx.go]

/-- C8 as amended: for an answer contained in the covered context window and
**aligned to subword token boundaries** — some context token's offset starts
exactly at `char_start` and some context token's offset ends exactly at
`char_end` — with offsets nondecreasing over the context token range and the
answer not flush against either end of that range (some context token starts
after `char_start` and some ends before `char_end`), the resolver's chosen
token span exactly covers `[char_start, char_end)`: the start token's offset
begins at `char_start` and the end token's offset ends at `char_end`.  For a
mid-token answer the chosen offsets properly contain the span instead. -/
theorem c8_exact_cover (clsId : Nat) (padOnRight : Bool) (f : QAFeature)
    (answerStart : List Nat) (answerText : List Char) (tsi tei : Nat)
    (hcls : clsId ∈ f.input_ids)
    (hne : answerStart.isEmpty = false)
    (hscanF : scanFwd f.seqIds (if padOnRight then 1 else 0) 0 = some tsi)
    (hscanB : scanBackFrom f.seqIds (if padOnRight then 1 else 0)
      (f.input_ids.length - 1) = some tei)
    (htei : tei < f.offsets.length)
    (htsile : tsi ≤ tei)
    (hmono : ∀ j k oj ok, tsi ≤ j → j ≤ k → k ≤ tei → f.offsets[j]? = some oj →
      f.offsets[k]? = some ok → oj.1 ≤ ok.1 ∧ oj.2 ≤ ok.2)
    (halignS : ∃ k ok, tsi ≤ k ∧ k ≤ tei ∧ f.offsets[k]? = some ok ∧
      ok.1 = answerStart.headD 0)
    (halignE : ∃ k ok, tsi ≤ k ∧ k ≤ tei ∧ f.offsets[k]? = some ok ∧
      ok.2 = answerStart.headD 0 + answerText.length)
    (hafter : ∃ m om, tsi ≤ m ∧ m ≤ tei ∧ f.offsets[m]? = some om ∧
      answerStart.headD 0 < om.1)
    (hbefore : ∃ m om, tsi ≤ m ∧ m ≤ tei ∧ f.offsets[m]? = some om ∧
      om.2 < answerStart.headD 0 + answerText.length) :
    ∃ (s e : Nat) (os oe : Nat × Nat),
      resolveSpan clsId padOnRight f answerStart answerText = some ((s : Int), (e : Int)) ∧
      f.offsets[s]? = some os ∧ os.1 = answerStart.headD 0 ∧
      f.offsets[e]? = some oe ∧ oe.2 = answerStart.headD 0 + answerText.length := by
  obtain ⟨k, ok, hk1, hk2, hk3, hk4⟩ := halignS
  obtain ⟨k2, ok2, hk21, hk22, hk23, hk24⟩ := halignE
  obtain ⟨m, om, hm1, hm2, hm3, hm4⟩ := hafter
  obtain ⟨m2, om2, hm21, hm22, hm23, hm24⟩ := hbefore
  have htsioffl : tsi < f.offsets.length := by omega
  have htsioff : f.offsets[tsi]? = some f.offsets[tsi] := List.getElem?_eq_getElem htsioffl
  have hteioff : f.offsets[tei]? = some f.offsets[tei] := List.getElem?_eq_getElem htei
  -- The containment guard holds, by monotonicity from the aligned tokens.
  have hguard1 : f.offsets[tsi].1 ≤ answerStart.headD 0 := by
    have := hmono tsi k f.offsets[tsi] ok (le_refl tsi) hk1 hk2 htsioff hk3
    omega
  have hguard2 : answerStart.headD 0 + answerText.length ≤ f.offsets[tei].2 := by
    have := hmono k2 tei ok2 f.offsets[tei] hk21 hk22 (le_refl tei) hk23 hteioff
    omega
  -- Start-side tightening facts.
  obtain ⟨hts1, hts2, hts3, hts4⟩ :=
    tightenStart_spec f.offsets (answerStart.headD 0) f.offsets.length tsi
      (by omega) (by omega)
  have htsm : tightenStart f.offsets (answerStart.headD 0) tsi ≤ m := by
    by_contra h
    obtain ⟨o', ho', hle'⟩ := hts3 m hm1 (by omega)
    rw [hm3] at ho'
    have heqo := Option.some.inj ho'
    rw [heqo] at hm4
    omega
  have htsgt : tsi + 1 ≤ tightenStart f.offsets (answerStart.headD 0) tsi := by
    rcases Nat.lt_or_ge tsi (tightenStart f.offsets (answerStart.headD 0) tsi) with h | h
    · omega
    · exfalso
      have heq : tightenStart f.offsets (answerStart.headD 0) tsi = tsi := by omega
      obtain ⟨o, hoeq, hgt⟩ := hts4 (by omega)
      rw [heq, htsioff] at hoeq
      have heqo := Option.some.inj hoeq
      rw [← heqo] at hgt
      omega
  have hklts : k < tightenStart f.offsets (answerStart.headD 0) tsi := by
    by_contra h
    obtain ⟨o', ho', hgt'⟩ := hts4 (by omega)
    have hmono2 := hmono (tightenStart f.offsets (answerStart.headD 0) tsi) k o' ok
      (by omega) (by omega) hk2 ho' hk3
    omega
  -- The chosen start token.
  obtain ⟨os, hsos, hsle⟩ :=
    hts3 (tightenStart f.offsets (answerStart.headD 0) tsi - 1) (by omega) (by omega)
  have hsexact : os.1 = answerStart.headD 0 := by
    have hmono3 := hmono k (tightenStart f.offsets (answerStart.headD 0) tsi - 1) ok os
      hk1 (by omega) (by omega) hk3 hsos
    omega
  -- End-side tightening facts.
  obtain ⟨r, o, hrEq, hrle, hro, hrlt, hmax⟩ :=
    tightenEnd_spec f.offsets (answerStart.headD 0 + answerText.length) tei htei
      ⟨m2, om2, hm22, hm23, hm24⟩
  have hm2r : m2 ≤ r := by
    by_contra h
    have := hmax m2 om2 (by omega) hm22 hm23
    omega
  have hrtei : r < tei := by
    rcases Nat.lt_or_ge r tei with h | h
    · exact h
    · exfalso
      have heq : r = tei := by omega
      subst heq
      rw [hteioff] at hro
      have heqo := Option.some.inj hro
      rw [← heqo] at hrlt
      omega
  have heoffl : r + 1 < f.offsets.length := by omega
  have heoff : f.offsets[r + 1]? = some f.offsets[r + 1] := List.getElem?_eq_getElem heoffl
  have hege : answerStart.headD 0 + answerText.length ≤ f.offsets[r + 1].2 :=
    hmax (r + 1) f.offsets[r + 1] (by omega) (by omega) heoff
  have hk2r : r < k2 := by
    by_contra h
    have hmono4 := hmono k2 r ok2 o hk21 (by omega) (by omega) hk23 hro
    omega
  have heexact : f.offsets[r + 1].2 = answerStart.headD 0 + answerText.length := by
    have hmono5 := hmono (r + 1) k2 f.offsets[r + 1] ok2 (by omega) (by omega) hk22
      heoff hk23
    omega
  -- Assemble: reduce the resolver along the established scan results.
  refine ⟨tightenStart f.offsets (answerStart.headD 0) tsi - 1, r + 1, os,
    f.offsets[r + 1], ?_, hsos, hsexact, heoff, heexact⟩
  unfold resolveSpan
  rw [if_pos hcls, if_neg (by simp [hne])]
  dsimp only
  rw [hscanF, hscanB]
  dsimp only
  rw [htsioff, hteioff]
  dsimp only
  rw [if_neg (not_not_intro ⟨hguard1, hguard2⟩), hrEq]
  dsimp only
  have hc1 : ((tightenStart f.offsets (answerStart.headD 0) tsi : Int)) - 1 =
      ((tightenStart f.offsets (answerStart.headD 0) tsi - 1 : Nat) : Int) := by omega
  have hc2 : ((r : Nat) : Int) + 1 = ((r + 1 : Nat) : Int) := by omega
  rw [hc1, hc2]

theorem c8_witness :
    ∃ (s e : Nat) (os oe : Nat × Nat),
      resolveSpan 101 true ⟨[101, 11, 12, 13, 102],
        [(0, 0), (0, 3), (4, 7), (8, 9), (0, 0)],
        [none, some 1, some 1, some 1, none]⟩ [4] ['x', 'y', 'z'] =
          some ((s : Int), (e : Int)) ∧
      ([(0, 0), (0, 3), (4, 7), (8, 9), (0, 0)] : List (Nat × Nat))[s]? = some os ∧
        os.1 = ([4] : List Nat).headD 0 ∧
      ([(0, 0), (0, 3), (4, 7), (8, 9), (0, 0)] : List (Nat × Nat))[e]? = some oe ∧
        oe.2 = ([4] : List Nat).headD 0 + (['x', 'y', 'z'] : List Char).length :=
  c8_exact_cover 101 true
    ⟨[101, 11, 12, 13, 102], [(0, 0), (0, 3), (4, 7), (8, 9), (0, 0)],
      [none, some 1, some 1, some 1, none]⟩ [4] ['x', 'y', 'z'] 1 3
    (by decide) (by decide) (by simp [scanFwd]) (by simp [scanBackFrom]) (by decide)
    (by decide)
    (by
      intro j k oj ok h1 h2 h3 hj hk
      have hj3 : j ≤ 3 := by omega
      have hk1 : 1 ≤ k := by omega
      interval_cases j <;> interval_cases k <;> simp_all <;>
        (try rw [← hj]) <;> (try rw [← hk]) <;> decide)
    ⟨2, (4, 7), by decide, by decide, by decide, by decide⟩
    ⟨2, (4, 7), by decide, by decide, by decide, by decide⟩
    ⟨3, (8, 9), by decide, by decide, by decide, by decide⟩
    ⟨1, (0, 3), by decide, by decide, by decide, by decide⟩
